import Mathlib

/-
Verification development for the DTable virtualized data-grid engine.

Each definition below is a shallow embedding of a function of the
TypeScript source; the file and symbol it embeds are named in its doc
comment.  JavaScript dynamic values are modelled by the inductive JVal
below; machine floats are modelled by rationals; the external string to
number conversions (Number(), parseFloat()) are modelled by explicit
computable parsers used consistently everywhere.
-/

namespace DTable

/-- Model of a JavaScript cell value: a (finite) number, a string, or
undefined (also standing in for null where the source uses null). -/
inductive JVal where
  | num (q : ℚ)
  | str (s : String)
  | undef
  deriving DecidableEq, Repr

/-- A data row: an insertion-ordered record from field key to value. -/
abbrev Row := List (String × JVal)

/-- Reading row[key]: the first binding wins (rows built by the engine
never carry duplicate keys); a missing key reads as undefined. -/
def rowGet (row : Row) (key : String) : JVal :=
  match row.lookup key with
  | some v => v
  | none => JVal.undef

/-- Object.values(row). -/
def rowValues (row : Row) : List JVal :=
  row.map Prod.snd

/-- Digits to a natural number. -/
def digitsToNat (cs : List Char) : Nat :=
  cs.foldl (fun acc c => acc * 10 + (c.toNat - Char.toNat '0')) 0

/-- Value of an optionally signed decimal literal. -/
def decimalVal (neg : Bool) (intPart fracPart : List Char) : ℚ :=
  let mag : ℚ := (digitsToNat intPart : ℚ) + (digitsToNat fracPart : ℚ) / ((10 : ℚ) ^ fracPart.length)
  if neg then -mag else mag

/-- Splits an optional leading sign. -/
def splitSign (cs : List Char) : Bool × List Char :=
  match cs with
  | '-' :: rest => (true, rest)
  | '+' :: rest => (false, rest)
  | rest => (false, rest)

/-- Model of the external Number(string) conversion: whitespace trims to
zero on empty, otherwise the whole string must be a signed decimal
literal; none models NaN. -/
def jsNumberOfString (s : String) : Option ℚ :=
  let cs := s.data.dropWhile (fun c => c = ' ')
  let cs := (cs.reverse.dropWhile (fun c => c = ' ')).reverse
  if cs.isEmpty then some 0
  else
    let (neg, rest) := splitSign cs
    let intPart := rest.takeWhile Char.isDigit
    let rest2 := rest.dropWhile Char.isDigit
    match rest2 with
    | [] => if intPart.isEmpty then none else some (decimalVal neg intPart [])
    | '.' :: frac =>
      let fracPart := frac.takeWhile Char.isDigit
      let rest3 := frac.dropWhile Char.isDigit
      if rest3.isEmpty && !(intPart.isEmpty && fracPart.isEmpty) then
        some (decimalVal neg intPart fracPart)
      else none
    | _ => none

/-- Model of Number(x) on a cell value; none models NaN. -/
def jsNumber (v : JVal) : Option ℚ :=
  match v with
  | JVal.num q => some q
  | JVal.str s => jsNumberOfString s
  | JVal.undef => none

/-- Model of the external parseFloat(string): leading whitespace skipped,
longest signed decimal literal taken, trailing junk ignored; none models
NaN. -/
def parseFloatString (s : String) : Option ℚ :=
  let cs := s.data.dropWhile (fun c => c = ' ')
  let (neg, rest) := splitSign cs
  let intPart := rest.takeWhile Char.isDigit
  let rest2 := rest.dropWhile Char.isDigit
  match rest2 with
  | '.' :: frac =>
    let fracPart := frac.takeWhile Char.isDigit
    if intPart.isEmpty && fracPart.isEmpty then none
    else some (decimalVal neg intPart fracPart)
  | _ => if intPart.isEmpty then none else some (decimalVal neg intPart [])

/-- Model of parseFloat(x) on a cell value (the value is stringified
first by JavaScript; a number parses back to itself, undefined parses to
NaN). -/
def parseFloatJ (v : JVal) : Option ℚ :=
  match v with
  | JVal.num q => some q
  | JVal.str s => parseFloatString s
  | JVal.undef => none

/-- Model of String(x).  The rendering of numbers is a fixed computable
choice used consistently on the code side and the spec side. -/
def jsToString (v : JVal) : String :=
  match v with
  | JVal.num q => if q.den = 1 then toString q.num else toString q
  | JVal.str s => s
  | JVal.undef => "undefined"

/-- Model of String(x ?? ""): undefined renders as the empty string. -/
def jsToStringOrEmpty (v : JVal) : String :=
  match v with
  | JVal.undef => ""
  | _ => jsToString v

/-- haystack.includes(needle) on strings: the needle occurs as a
contiguous segment of the haystack. -/
def strContains (haystack needle : String) : Bool :=
  (List.range (haystack.data.length + 1)).any
    (fun i => needle.data.isPrefixOf (haystack.data.drop i))

/-- Model of localeCompare: sign of the lexicographic comparison. -/
def localeCompare (a b : String) : Int :=
  if a < b then -1 else if b < a then 1 else 0

/-- Sort direction of a query. -/
inductive SortDir where
  | asc
  | desc
  deriving DecidableEq, Repr

/-- ColumnFilterValue tagged union (src/types): set, text, dateRange,
numberRange. -/
inductive ColumnFilterValue where
  | setF (values : List String)
  | textF (value : String)
  | dateRange (dstart dend : Option String)
  | numberRange (min max : Option ℚ)
  deriving DecidableEq, Repr

/-- ITableQuery (src/types): optional sort key and direction, global
filter text, per-column filters keyed by column key. -/
structure ITableQuery where
  sortKey : Option String := none
  sortDirection : Option SortDir := none
  filterText : Option String := none
  columnFilters : Option (List (String × ColumnFilterValue)) := none
  deriving DecidableEq, Repr

/-- Embeds one filter case of ClientDataStrategy.matchesColumnFilters
(src/table/data/ClientDataStrategy.ts).  Faithful to the source,
including the numberRange branch testing num < filter.max. -/
def matchesOneFilter (row : Row) (key : String) (f : ColumnFilterValue) : Bool :=
  let cellVal := rowGet row key
  match f with
  | ColumnFilterValue.setF values =>
    if values.length = 0 then true
    else values.contains (jsToStringOrEmpty cellVal)
  | ColumnFilterValue.textF value =>
    if value = "" then true
    else strContains (jsToStringOrEmpty cellVal).toLower value.toLower
  | ColumnFilterValue.dateRange dstart dend =>
    let dateStr := jsToStringOrEmpty cellVal
    (match dstart with
     | some s => if s = "" then true else !(decide (dateStr < s))
     | none => true) &&
    (match dend with
     | some e => if e = "" then true else !(decide (e < dateStr))
     | none => true)
  | ColumnFilterValue.numberRange mn mx =>
    match jsNumber cellVal with
    | none => false
    | some num =>
      (match mn with
       | some m => !(decide (num < m))
       | none => true) &&
      (match mx with
       | some m => !(decide (num < m))
       | none => true)

/-- Embeds ClientDataStrategy.matchesColumnFilters: a row passes iff
every configured column filter accepts it. -/
def matchesColumnFilters (row : Row) (columnFilters : List (String × ColumnFilterValue)) : Bool :=
  columnFilters.all (fun kf => matchesOneFilter row kf.1 kf.2)

/-- Embeds ClientDataStrategy.applyFilters: global text filter first
(skipped when filterText is absent or empty, per JS truthiness), then the
column filters (skipped when the columnFilters object is absent). -/
def applyFilters (data : List Row) (query : ITableQuery) : List Row :=
  let result := data
  let result :=
    match query.filterText with
    | some t =>
      if t = "" then result
      else
        let text := t.toLower
        result.filter (fun row =>
          (rowValues row).any (fun val => strContains (jsToString val).toLower text))
    | none => result
  match query.columnFilters with
  | some fs => result.filter (fun row => matchesColumnFilters row fs)
  | none => result

/-- Embeds the comparator inside ClientDataStrategy.applySort: numeric
when both parseFloat results are numbers, string localeCompare otherwise,
with desc flipping the operands. -/
def sortCmp (sortKey : String) (dir : SortDir) (a b : Row) : ℚ :=
  let aVal := rowGet a sortKey
  let bVal := rowGet b sortKey
  match parseFloatJ aVal, parseFloatJ bVal with
  | some aNum, some bNum =>
    match dir with
    | SortDir.asc => aNum - bNum
    | SortDir.desc => bNum - aNum
  | _, _ =>
    let aStr := jsToString aVal
    let bStr := jsToString bVal
    match dir with
    | SortDir.asc => (localeCompare aStr bStr : ℚ)
    | SortDir.desc => (localeCompare bStr aStr : ℚ)

/-- Stable insertion of an element into an already sorted prefix: the new
element goes after every earlier element it does not strictly precede,
matching the stability of Array.prototype.sort. -/
def insertSorted (cmp : Row → Row → ℚ) (a : Row) : List Row → List Row
  | [] => [a]
  | b :: rest => if cmp a b < 0 then a :: b :: rest else b :: insertSorted cmp a rest

/-- Stable sort by a comparator, processing elements left to right. -/
def stableSortBy (cmp : Row → Row → ℚ) (l : List Row) : List Row :=
  l.foldl (fun acc row => insertSorted cmp row acc) []

/-- Embeds ClientDataStrategy.applySort: copies and sorts by sortCmp. -/
def applySort (data : List Row) (sortKey : String) (dir : SortDir) : List Row :=
  stableSortBy (sortCmp sortKey dir) data

/-- State of the in-memory (client) data strategy
(src/table/data/ClientDataStrategy.ts): the untouched full data, the
current filtered-and-sorted view, and the last query. -/
structure ClientState where
  fullData : List Row
  filteredData : List Row
  currentQuery : ITableQuery := {}
  deriving DecidableEq, Repr

/-- Result record of applyQuery. -/
structure QueryResult where
  totalRows : Nat
  shouldResetScroll : Bool
  deriving DecidableEq, Repr

/-- The ClientDataStrategy constructor: filteredData starts as a copy of
the initial data. -/
def mkClient (initialData : List Row) : ClientState :=
  { fullData := initialData, filteredData := initialData }

/-- Embeds ClientDataStrategy.applyQuery: store the query, filter the
full data, then sort when both sortKey and sortDirection are set (JS
truthiness: an empty sortKey is falsy), and report the filtered length
with a scroll reset. -/
def applyQuery (st : ClientState) (query : ITableQuery) : ClientState × QueryResult :=
  let filtered := applyFilters st.fullData query
  let filtered :=
    match query.sortKey, query.sortDirection with
    | some k, some d => if k = "" then filtered else applySort filtered k d
    | _, _ => filtered
  ({ st with currentQuery := query, filteredData := filtered },
   { totalRows := filtered.length, shouldResetScroll := true })

/-- Embeds ClientDataStrategy.getRow: index into filteredData. -/
def getRow (st : ClientState) (rowIndex : Nat) : Option Row :=
  st.filteredData[rowIndex]?

/-- Embeds ClientDataStrategy.ensurePageForRow: a no-op in client mode. -/
def ensurePageForRowClient (st : ClientState) (_rowIndex : Nat) : ClientState :=
  st

end DTable

namespace DTable

/-! ## Specification-side definitions for the in-memory strategy -/

/-- Spec side, from the specification text: a row passes the global
filter text iff some stringified cell contains it case-insensitively.
An absent filter text imposes no constraint; the empty string is the
"unset" encoding used by the source (JS truthiness), so it also imposes
no constraint. -/
def specGlobalPass (filterText : Option String) (row : Row) : Bool :=
  match filterText with
  | none => true
  | some t =>
    if t = "" then true
    else (rowValues row).any (fun val => strContains (jsToString val).toLower t.toLower)

/-- Spec side: a row passes the per-column filters when every configured
column filter accepts it; an absent filter map imposes no constraint. -/
def specColumnsPass (columnFilters : Option (List (String × ColumnFilterValue))) (row : Row) : Bool :=
  match columnFilters with
  | none => true
  | some fs => matchesColumnFilters row fs

/-- Spec side: a row survives the query filtering iff it passes the
global filter text and all per-column filters. -/
def specRowPasses (query : ITableQuery) (row : Row) : Bool :=
  specGlobalPass query.filterText row && specColumnsPass query.columnFilters row

/-- Spec side, from the specification text: compare two rows numerically
when both cell values parse to (finite) numbers, otherwise by
locale-aware string comparison; descending order negates the ascending
comparison. -/
def specCompareBase (sortKey : String) (a b : Row) : ℚ :=
  match parseFloatJ (rowGet a sortKey), parseFloatJ (rowGet b sortKey) with
  | some x, some y => x - y
  | _, _ =>
    (localeCompare (jsToString (rowGet a sortKey)) (jsToString (rowGet b sortKey)) : ℚ)

/-- Spec side: descending order negates the ascending comparison. -/
def specCompare (sortKey : String) (dir : SortDir) (a b : Row) : ℚ :=
  match dir with
  | SortDir.asc => specCompareBase sortKey a b
  | SortDir.desc => -specCompareBase sortKey a b

/-- Spec side: sort the view when a sort is set (sort key present and
nonempty, direction present), stably, by the spec comparator. -/
def specSortIfSet (query : ITableQuery) (l : List Row) : List Row :=
  match query.sortKey, query.sortDirection with
  | some k, some d => if k = "" then l else stableSortBy (specCompare k d) l
  | _, _ => l

/-! ## Helper lemmas -/

/-- The two sequential filters of applyFilters amount to one filter by
the conjunction of the spec predicates. -/
theorem applyFilters_eq_filter_specRowPasses (data : List Row) (query : ITableQuery) :
    applyFilters data query = data.filter (specRowPasses query) := by
  unfold applyFilters specRowPasses specGlobalPass specColumnsPass
  rcases hft : query.filterText with _ | t
  · rcases hcf : query.columnFilters with _ | fs
    · simp
    · simp
  · rcases hcf : query.columnFilters with _ | fs
    · by_cases ht : t = "" <;> simp [ht]
    · by_cases ht : t = "" <;> simp [ht, List.filter_filter, Bool.and_comm]

/-- Swapping the operands of localeCompare negates it. -/
theorem localeCompare_swap (a b : String) : localeCompare b a = -localeCompare a b := by
  unfold localeCompare
  rcases lt_trichotomy a b with h | h | h
  · rw [if_neg (asymm h), if_pos h, if_pos h]; norm_num
  · subst h; simp
  · rw [if_pos h, if_neg (asymm h), if_pos h]

/-- Cast form of the previous lemma. -/
theorem localeCompare_swap_cast (a b : String) :
    ((localeCompare b a : Int) : ℚ) = -((localeCompare a b : Int) : ℚ) := by
  rw [localeCompare_swap, Int.cast_neg]

/-- The source comparator agrees with the spec comparator. -/
theorem sortCmp_eq_specCompare (sortKey : String) (dir : SortDir) (a b : Row) :
    sortCmp sortKey dir a b = specCompare sortKey dir a b := by
  unfold sortCmp specCompare specCompareBase
  rcases hpa : parseFloatJ (rowGet a sortKey) with _ | x <;>
    rcases hpb : parseFloatJ (rowGet b sortKey) with _ | y <;>
      cases dir <;>
        simp only [hpa, hpb]
  all_goals first
    | exact localeCompare_swap_cast _ _
    | ring

end DTable

namespace DTable

/-- A sequence of queries applied to the client strategy in order. -/
def applyQueries (st : ClientState) (qs : List ITableQuery) : ClientState :=
  qs.foldl (fun s q => (applyQuery s q).1) st

/-- applyQuery never touches fullData. -/
theorem applyQueries_fullData (st : ClientState) (qs : List ITableQuery) :
    (applyQueries st qs).fullData = st.fullData := by
  induction qs generalizing st with
  | nil => rfl
  | cons q rest ih => exact (ih (applyQuery st q).1).trans rfl

/-- C2: the in-memory numberRange column filter excludes a row whose cell
value lies inside the configured `[min, max]` interval: with min = 1 and
max = 10, the parsed value 5 satisfies 1 <= 5 and 5 <= 10, yet
matchesColumnFilters rejects the row (the source tests num < filter.max
where its own comment calls for num > filter.max), and applyQuery
therefore drops the row from filteredData. -/
theorem numberRange_rejects_in_range_value :
    matchesColumnFilters [("n", JVal.num 5)]
      [("n", ColumnFilterValue.numberRange (some 1) (some 10))] = false
    ∧ (1 : ℚ) ≤ 5 ∧ (5 : ℚ) ≤ 10
    ∧ (applyQuery (mkClient [[("n", JVal.num 5)]])
        { columnFilters := some [("n", ColumnFilterValue.numberRange (some 1) (some 10))] }
      ).1.filteredData = [] := by
  refine ⟨by decide, by norm_num, by norm_num, ?_⟩
  decide

/-- C5: applyQuery of the in-memory strategy computes exactly the
spec-side pipeline: keep the rows of fullData that pass the global
filter text and all per-column filters, then sort them by the spec
comparator when a sort is set; the resolved totalRows is the filtered
length, shouldResetScroll is always true, getRow indexes filteredData,
and ensurePageForRow leaves the strategy untouched. -/
theorem applyQuery_meets_spec (st : ClientState) (query : ITableQuery) :
    (applyQuery st query).1.filteredData
        = specSortIfSet query (st.fullData.filter (specRowPasses query))
    ∧ (applyQuery st query).2.totalRows = (applyQuery st query).1.filteredData.length
    ∧ (applyQuery st query).2.shouldResetScroll = true
    ∧ (∀ i, getRow (applyQuery st query).1 i = (applyQuery st query).1.filteredData[i]?)
    ∧ (∀ j, ensurePageForRowClient (applyQuery st query).1 j = (applyQuery st query).1) := by
  refine ⟨?_, rfl, rfl, fun i => rfl, fun j => rfl⟩
  show (let filtered := applyFilters st.fullData query
        match query.sortKey, query.sortDirection with
        | some k, some d => if k = "" then filtered else applySort filtered k d
        | _, _ => filtered)
      = specSortIfSet query (st.fullData.filter (specRowPasses query))
  rw [applyFilters_eq_filter_specRowPasses]
  unfold specSortIfSet applySort
  have hcmp : ∀ k d, sortCmp k d = specCompare k d := by
    intro k d
    funext a b
    exact sortCmp_eq_specCompare k d a b
  rcases query.sortKey with _ | k <;> rcases query.sortDirection with _ | d <;> simp [hcmp]

/-- C8: applyQuery of the in-memory strategy is idempotent: running the
same query twice yields the same filteredData, the same result record
(hence the same resolved totalRows) and the same getRow answers as
running it once. -/
theorem applyQuery_idempotent (st : ClientState) (query : ITableQuery) :
    (applyQuery (applyQuery st query).1 query).1.filteredData
        = (applyQuery st query).1.filteredData
    ∧ (applyQuery (applyQuery st query).1 query).2 = (applyQuery st query).2
    ∧ (∀ i, getRow (applyQuery (applyQuery st query).1 query).1 i
        = getRow (applyQuery st query).1 i) := by
  exact ⟨rfl, rfl, fun i => rfl⟩

/-- C10: the in-memory strategy never mutates fullData: after any
sequence of applyQuery calls starting from the constructed strategy,
fullData is still the original initialData, and applying the empty query
(no filter text, no column filters, no sort) restores filteredData to
exactly the initial rows in their original order. -/
theorem applyQuery_frame_fullData (initialData : List Row) (qs : List ITableQuery) :
    (applyQueries (mkClient initialData) qs).fullData = initialData
    ∧ (applyQuery (applyQueries (mkClient initialData) qs) {}).1.filteredData
        = initialData := by
  have h := applyQueries_fullData (mkClient initialData) qs
  refine ⟨h, ?_⟩
  show applyFilters (applyQueries (mkClient initialData) qs).fullData {} = initialData
  rw [h]
  rfl

end DTable

namespace DTable

/-! ## Column model (src/table/model/ColumnModel.ts and its hidden-keys
aware revision) -/

/-- The fields of a user-supplied column that the column model reads. -/
structure IColumn where
  key : String
  width : Nat
  deriving DecidableEq, Repr

/-- A resolved column: definitive width plus the freeze flag. -/
structure ResolvedColumn where
  key : String
  width : Nat
  isFrozen : Bool
  deriving DecidableEq, Repr

/-- The columns slice of the table state. -/
structure ColumnsState where
  order : List String
  widthOverrides : List (String × Nat)
  hiddenKeys : List String
  frozenCount : Nat
  deriving DecidableEq, Repr

/-- Lookup in the key-to-column map built by forEach plus Map.set: a
later column with the same key overwrites an earlier one. -/
def mapGet (cols : List IColumn) (key : String) : Option IColumn :=
  cols.foldl (fun acc c => if c.key = key then some c else acc) none

/-- Decoration step shared by nothing: width override application and the
freeze flag, from the final map of resolveColumns. -/
def decorateColumn (sc : ColumnsState) (i : Nat) (col : IColumn) : ResolvedColumn :=
  { key := col.key,
    width := match sc.widthOverrides.lookup col.key with
             | some w => w
             | none => col.width,
    isFrozen := decide (i < sc.frozenCount) }

/-- Embeds resolveColumns (hidden-keys aware revision): filter hidden
columns, order the remaining ones by the state order restricted to
non-hidden keys through the key map, append any visible column missed by
the order when the lengths differ, then apply width overrides and the
freeze flag. -/
def resolveColumns (originalColumns : List IColumn) (sc : ColumnsState) : List ResolvedColumn :=
  let visibleColumns := originalColumns.filter (fun c => !sc.hiddenKeys.contains c.key)
  let visibleOrder := sc.order.filter (fun k => !sc.hiddenKeys.contains k)
  let ordered := visibleOrder.filterMap (fun k => mapGet visibleColumns k)
  let ordered :=
    if ordered.length ≠ visibleColumns.length then
      ordered ++ visibleColumns.filter
        (fun c => !(ordered.map (fun x => x.key)).contains c.key)
    else ordered
  ordered.mapIdx (fun i col => decorateColumn sc i col)

/-- Spec side, from the specification text: exactly the non-hidden
original columns, ordered by the state order restricted to visible keys,
with any visible column whose key is missing from the order appended in
original position order, then decorated with width overrides and the
freeze flag. -/
def specResolveColumns (originalColumns : List IColumn) (sc : ColumnsState) : List ResolvedColumn :=
  let visible := originalColumns.filter (fun c => !sc.hiddenKeys.contains c.key)
  let front := sc.order.filterMap (fun k => visible.find? (fun c => c.key = k))
  let back := visible.filter (fun c => !sc.order.contains c.key)
  (front ++ back).mapIdx (fun i col => decorateColumn sc i col)

/-- Embeds assertUniqueColumnKeys (the loop carrying the set of seen
keys). -/
def assertUniqueColumnKeysGo (seen : List String) : List IColumn → Except String Unit
  | [] => Except.ok ()
  | c :: rest =>
    if seen.contains c.key then
      Except.error ("columns.key must be unique, duplicate key: " ++ c.key)
    else assertUniqueColumnKeysGo (c.key :: seen) rest

/-- Embeds assertUniqueColumnKeys: raise on the first duplicate key. -/
def assertUniqueColumnKeys (columns : List IColumn) : Except String Unit :=
  assertUniqueColumnKeysGo [] columns

end DTable

namespace DTable

theorem mapGet_foldl_acc (cols : List IColumn) (k : String) (acc : Option IColumn)
    (h : ∀ c ∈ cols, c.key ≠ k) :
    cols.foldl (fun acc c => if c.key = k then some c else acc) acc = acc := by
  induction cols generalizing acc with
  | nil => rfl
  | cons c rest ih =>
    simp only [List.foldl_cons]
    rw [if_neg (h c (by simp))]
    exact ih acc (fun d hd => h d (by simp [hd]))

theorem mapGet_foldl_isSome (cols : List IColumn) (k : String) (acc : Option IColumn)
    (h : acc.isSome = true) :
    (cols.foldl (fun acc c => if c.key = k then some c else acc) acc).isSome = true := by
  induction cols generalizing acc with
  | nil => exact h
  | cons c rest ih =>
    simp only [List.foldl_cons]
    by_cases hc : c.key = k
    · rw [if_pos hc]; exact ih (some c) rfl
    · rw [if_neg hc]; exact ih acc h

theorem mapGet_foldl_some_mem (cols : List IColumn) (k : String) (acc : Option IColumn)
    (c : IColumn)
    (h : cols.foldl (fun acc c => if c.key = k then some c else acc) acc = some c) :
    (c ∈ cols ∧ c.key = k) ∨ acc = some c := by
  induction cols generalizing acc with
  | nil => exact Or.inr h
  | cons d rest ih =>
    simp only [List.foldl_cons] at h
    rcases ih _ h with ⟨hm, hk⟩ | hacc
    · exact Or.inl ⟨List.mem_cons_of_mem _ hm, hk⟩
    · by_cases hd : d.key = k
      · rw [if_pos hd] at hacc
        have : d = c := Option.some.inj hacc
        exact Or.inl ⟨this ▸ List.mem_cons_self d rest, this ▸ hd⟩
      · rw [if_neg hd] at hacc
        exact Or.inr hacc

theorem mapGet_some_mem (cols : List IColumn) (k : String) (c : IColumn)
    (h : mapGet cols k = some c) : c ∈ cols ∧ c.key = k := by
  rcases mapGet_foldl_some_mem cols k none c h with good | bad
  · exact good
  · cases bad

theorem mapGet_isSome_of_exists (cols : List IColumn) (k : String)
    (h : ∃ c ∈ cols, c.key = k) : (mapGet cols k).isSome = true := by
  unfold mapGet
  induction cols with
  | nil => simp at h
  | cons d rest ih =>
    obtain ⟨c, hc, hk⟩ := h
    simp only [List.foldl_cons]
    rcases List.mem_cons.mp hc with rfl | hmem
    · rw [if_pos hk]
      exact mapGet_foldl_isSome rest k (some c) rfl
    · by_cases hd : d.key = k
      · rw [if_pos hd]
        exact mapGet_foldl_isSome rest k (some d) rfl
      · rw [if_neg hd]
        exact ih ⟨c, hmem, hk⟩

theorem mapGet_eq_find? (cols : List IColumn) (k : String)
    (h : (cols.map (fun c => c.key)).Nodup) :
    mapGet cols k = cols.find? (fun c => c.key = k) := by
  induction cols with
  | nil => rfl
  | cons d rest ih =>
    rw [List.map_cons, List.nodup_cons] at h
    obtain ⟨hd, hrest⟩ := h
    by_cases hk : d.key = k
    · show (List.foldl _ (if d.key = k then some d else none) rest) = _
      rw [if_pos hk, List.find?_cons_of_pos _ (by simp [hk])]
      refine mapGet_foldl_acc rest k (some d) ?_
      intro c hc hck
      exact hd (List.mem_map.mpr ⟨c, hc, by rw [hck, hk]⟩)
    · show (List.foldl _ (if d.key = k then some d else none) rest) = _
      rw [if_neg hk, List.find?_cons_of_neg _ (by simp [hk])]
      exact ih hrest

theorem filterMap_guard_eq_filter (p : String → Bool) (l : List String) :
    l.filterMap (fun k => if p k then some k else none) = l.filter p := by
  induction l with
  | nil => rfl
  | cons a rest ih =>
    by_cases ha : p a <;> simp [ha, ih]

end DTable

namespace DTable

theorem resolve_front_eq (visible : List IColumn) (order hidden : List String)
    (hnd : (visible.map (fun c => c.key)).Nodup)
    (hvis : ∀ c ∈ visible, hidden.contains c.key = false) :
    (order.filter (fun k => !hidden.contains k)).filterMap (fun k => mapGet visible k)
      = order.filterMap (fun k => visible.find? (fun c => c.key = k)) := by
  rw [List.filterMap_filter]
  apply List.filterMap_congr
  intro k _
  by_cases hk : hidden.contains k = true
  · simp only [hk]
    rw [if_neg (by simp)]
    symm
    rw [List.find?_eq_none]
    intro c hc hck
    have : c.key = k := by simpa using hck
    rw [← this] at hk
    rw [hvis c hc] at hk
    cases hk
  · have hk' : hidden.contains k = false := by simpa using hk
    simp only [hk']
    rw [if_pos (by simp)]
    exact mapGet_eq_find? visible k hnd

end DTable

namespace DTable

/-- C3: column resolution returns exactly the non-hidden original
columns, ordered by the state order restricted to visible keys with any
missing visible key appended in original position order, each carrying
the overridden width when an override exists and the original width
otherwise, and frozen exactly at indices below frozenCount — provided
the original keys are unique (enforced at construction) and the order
list carries no duplicates (the state invariant). -/
theorem resolveColumns_meets_spec (originalColumns : List IColumn) (sc : ColumnsState)
    (h1 : (originalColumns.map (fun c => c.key)).Nodup)
    (h2 : sc.order.Nodup) :
    resolveColumns originalColumns sc = specResolveColumns originalColumns sc := by
  unfold resolveColumns specResolveColumns
  simp only []
  set visible := originalColumns.filter (fun c => !sc.hiddenKeys.contains c.key) with hv
  have hvissub : (visible.map (fun c => c.key)).Sublist (originalColumns.map (fun c => c.key)) :=
    (List.filter_sublist _).map _
  have hvisnd : (visible.map (fun c => c.key)).Nodup := hvissub.nodup h1
  have hvismem : ∀ c ∈ visible, sc.hiddenKeys.contains c.key = false := by
    intro c hc
    have := List.of_mem_filter hc
    simpa using this
  set ordered := (sc.order.filter (fun k => !sc.hiddenKeys.contains k)).filterMap
      (fun k => mapGet visible k) with ho
  have hfront : ordered = sc.order.filterMap (fun k => visible.find? (fun c => c.key = k)) :=
    resolve_front_eq visible sc.order sc.hiddenKeys hvisnd hvismem
  -- characterize the keys of the ordered part
  have hpoint : ∀ k, Option.map (fun c => c.key) (mapGet visible k)
      = if (mapGet visible k).isSome then some k else none := by
    intro k
    rcases hm : mapGet visible k with _ | c
    · simp
    · have hk := (mapGet_some_mem visible k c hm).2
      simp [hk]
  have hkeys : ordered.map (fun c => c.key)
      = (sc.order.filter (fun k => !sc.hiddenKeys.contains k)).filter
          (fun k => (mapGet visible k).isSome) := by
    rw [ho, List.map_filterMap]
    rw [List.filterMap_congr (fun k _ => hpoint k)]
    exact filterMap_guard_eq_filter _ _
  have hkeyssub : (ordered.map (fun c => c.key)).Sublist sc.order := by
    rw [hkeys]
    exact (List.filter_sublist _).trans (List.filter_sublist _)
  have hmemvisible : ∀ x ∈ ordered, x ∈ visible := by
    intro x hx
    rw [ho] at hx
    obtain ⟨k, _, hk⟩ := List.mem_filterMap.mp hx
    exact (mapGet_some_mem visible k x hk).1
  by_cases hlen : ordered.length ≠ visible.length
  · rw [if_pos hlen]
    -- lengths differ: the append runs; show the two back filters agree
    have hiff : ∀ c ∈ visible,
        ((ordered.map (fun x => x.key)).contains c.key = sc.order.contains c.key) := by
      intro c hc
      have fwd : c.key ∈ ordered.map (fun x => x.key) → c.key ∈ sc.order :=
        fun h => hkeyssub.subset h
      have bwd : c.key ∈ sc.order → c.key ∈ ordered.map (fun x => x.key) := by
        intro hmem
        rw [hkeys]
        refine List.mem_filter.mpr ⟨List.mem_filter.mpr ⟨hmem, ?_⟩, ?_⟩
        · simpa using hvismem c hc
        · exact mapGet_isSome_of_exists visible c.key ⟨c, hc, rfl⟩
      cases hcon1 : (ordered.map (fun x => x.key)).contains c.key <;>
        cases hcon2 : sc.order.contains c.key <;> simp_all
    have hback : visible.filter (fun c => !(ordered.map (fun x => x.key)).contains c.key)
        = visible.filter (fun c => !sc.order.contains c.key) :=
      List.filter_congr (fun c hc => by rw [hiff c hc])
    rw [hback, hfront]
  · rw [if_neg hlen]
    -- lengths equal: every visible key is already in the order; back is empty
    push_neg at hlen
    have hordnd : (ordered.map (fun c => c.key)).Nodup := hkeyssub.nodup h2
    have hsubkeys : (ordered.map (fun c => c.key)).toFinset
        ⊆ (visible.map (fun c => c.key)).toFinset := by
      intro k hk
      rw [List.mem_toFinset] at hk ⊢
      obtain ⟨x, hx, hxk⟩ := List.mem_map.mp hk
      exact List.mem_map.mpr ⟨x, hmemvisible x hx, hxk⟩
    have hcards : (visible.map (fun c => c.key)).toFinset.card
        ≤ (ordered.map (fun c => c.key)).toFinset.card := by
      rw [List.toFinset_card_of_nodup hordnd, List.toFinset_card_of_nodup hvisnd]
      simp [hlen]
    have hfineq := Finset.eq_of_subset_of_card_le hsubkeys hcards
    have hallin : ∀ c ∈ visible, c.key ∈ sc.order := by
      intro c hc
      have hkv : c.key ∈ (visible.map (fun c => c.key)).toFinset :=
        List.mem_toFinset.mpr (List.mem_map.mpr ⟨c, hc, rfl⟩)
      rw [← hfineq] at hkv
      exact hkeyssub.subset (List.mem_toFinset.mp hkv)
    have hback : visible.filter (fun c => !sc.order.contains c.key) = [] := by
      rw [List.filter_eq_nil_iff]
      intro c hc
      simp [hallin c hc]
    rw [hback, List.append_nil, hfront]

end DTable

namespace DTable

theorem assertGo_ok_iff (cols : List IColumn) (seen : List String) :
    (assertUniqueColumnKeysGo seen cols = Except.ok () ↔
      ((cols.map (fun c => c.key)).Nodup ∧ ∀ k ∈ cols.map (fun c => c.key), k ∉ seen)) := by
  induction cols generalizing seen with
  | nil => simp [assertUniqueColumnKeysGo]
  | cons c rest ih =>
    unfold assertUniqueColumnKeysGo
    by_cases hc : seen.contains c.key = true
    · rw [if_pos hc]
      constructor
      · intro h; cases h
      · rintro ⟨hnd, hall⟩
        exact absurd (by simpa using hc) (hall c.key (by simp))
    · rw [if_neg hc, ih]
      have hcmem : c.key ∉ seen := by simpa using hc
      constructor
      · rintro ⟨hnd, hall⟩
        refine ⟨?_, ?_⟩
        · rw [List.map_cons, List.nodup_cons]
          refine ⟨fun hmem => ?_, hnd⟩
          exact (hall c.key hmem) (List.mem_cons_self _ _)
        · intro k hk
          rw [List.map_cons, List.mem_cons] at hk
          rcases hk with rfl | hks
          · exact hcmem
          · exact fun hkseen => (hall k hks) (List.mem_cons_of_mem _ hkseen)
      · rintro ⟨hnd, hall⟩
        rw [List.map_cons, List.nodup_cons] at hnd
        refine ⟨hnd.2, ?_⟩
        intro k hk
        simp only [List.mem_cons, not_or]
        refine ⟨fun hkc => ?_, ?_⟩
        · exact hnd.1 (hkc ▸ hk)
        · exact hall k (by rw [List.map_cons, List.mem_cons]; exact Or.inr hk)

/-- C9: the duplicate-key check of table construction succeeds exactly
when all column keys are distinct, and raises an error exactly when some
key repeats. -/
theorem assertUniqueColumnKeys_spec (columns : List IColumn) :
    (assertUniqueColumnKeys columns = Except.ok ()
        ↔ (columns.map (fun c => c.key)).Nodup)
    ∧ ((∃ e, assertUniqueColumnKeys columns = Except.error e)
        ↔ ¬ (columns.map (fun c => c.key)).Nodup) := by
  have h := assertGo_ok_iff columns []
  have hok : assertUniqueColumnKeys columns = Except.ok ()
      ↔ (columns.map (fun c => c.key)).Nodup := by
    rw [assertUniqueColumnKeys, h]
    simp
  refine ⟨hok, ?_, ?_⟩
  · rintro ⟨e, he⟩ hnd
    rw [hok.mpr hnd] at he
    cases he
  · intro hnnd
    rcases hres : assertUniqueColumnKeys columns with e | u
    · exact ⟨e, rfl⟩
    · cases u
      exact absurd (hok.mp hres) hnnd

end DTable

namespace DTable

/-- Closed instance of the column resolution theorem at a concrete
input, discharging both uniqueness hypotheses. -/
theorem resolveColumns_meets_spec_witness :
    resolveColumns [⟨"a", 100⟩, ⟨"b", 120⟩, ⟨"c", 140⟩]
        { order := ["c", "a"], widthOverrides := [("a", 50)],
          hiddenKeys := ["b"], frozenCount := 1 }
      = specResolveColumns [⟨"a", 100⟩, ⟨"b", 120⟩, ⟨"c", 140⟩]
        { order := ["c", "a"], widthOverrides := [("a", 50)],
          hiddenKeys := ["b"], frozenCount := 1 } :=
  resolveColumns_meets_spec _ _ (by decide) (by decide)

end DTable

namespace DTable

/-! ## Paged-remote (server) data strategy
(src/table/data/ServerDataStrategy.ts) -/

/-- A page response of the injected fetchPageData. -/
structure IPageResponse where
  list : List Row
  totalRows : Nat
  deriving DecidableEq, Repr

/-- State of the paged-remote strategy.  fetchLog records every
invocation of the injected fetchPageData, newest last; loading holds the
page indices whose promise is currently stored in loadingPromises. -/
structure ServerState where
  pageSize : Nat
  pageCache : List (Nat × List Row) := []
  loading : List Nat := []
  currentQuery : ITableQuery := {}
  totalRows : Nat := 0
  fetchLog : List (Nat × ITableQuery) := []
  deriving DecidableEq, Repr

/-- What one synchronous call to ensurePageForRow did. -/
inductive EnsureOutcome where
  | cached
  | awaited
  | started
  deriving DecidableEq, Repr

/-- Embeds the synchronous prefix of ensurePageForRow, which runs
atomically up to the first await (JavaScript run-to-completion): a
cached page resolves at once; a page already in loadingPromises is
awaited; otherwise loadPage is called, which invokes fetchPageData
immediately (recorded in fetchLog), and the promise is stored in
loadingPromises before control yields. -/
def ensurePageForRowStart (st : ServerState) (rowIndex : Nat) : ServerState × EnsureOutcome :=
  let pageIndex := rowIndex / st.pageSize
  if (st.pageCache.lookup pageIndex).isSome then
    (st, EnsureOutcome.cached)
  else if st.loading.contains pageIndex then
    (st, EnsureOutcome.awaited)
  else
    ({ st with
        fetchLog := st.fetchLog ++ [(pageIndex, st.currentQuery)],
        loading := st.loading ++ [pageIndex] },
     EnsureOutcome.started)

/-- Assoc-list update with Map.set semantics. -/
def setAssoc (m : List (Nat × List Row)) (k : Nat) (v : List Row) : List (Nat × List Row) :=
  if (m.lookup k).isSome then
    m.map (fun p => if p.1 = k then (k, v) else p)
  else m ++ [(k, v)]

/-- Embeds the settling of a successful page fetch: loadPage writes the
page into pageCache and updates totalRows, then the finally clause of
ensurePageForRow deletes the promise from loadingPromises. -/
def settlePage (st : ServerState) (pageIndex : Nat) (res : IPageResponse) : ServerState :=
  { st with
      pageCache := setAssoc st.pageCache pageIndex res.list,
      totalRows := res.totalRows,
      loading := st.loading.filter (fun p => p ≠ pageIndex) }

/-- Several synchronous calls to ensurePageForRow issued before any
pending promise settles. -/
def ensureMany (st : ServerState) (rows : List Nat) : ServerState × List EnsureOutcome :=
  match rows with
  | [] => (st, [])
  | r :: rest =>
    let step := ensurePageForRowStart st r
    let next := ensureMany step.1 rest
    (next.1, step.2 :: next.2)

theorem lookup_append_of_none {m : List (Nat × List Row)} {k : Nat} {v : List Row}
    (h : m.lookup k = none) : (m ++ [(k, v)]).lookup k = some v := by
  induction m with
  | nil => simp [List.lookup]
  | cons p rest ih =>
    rcases p with ⟨a, b⟩
    rw [List.cons_append]
    rw [List.lookup] at h ⊢
    by_cases hk : (k == a) = true
    · rw [hk] at h
      cases h
    · rw [Bool.not_eq_true] at hk
      rw [hk] at h ⊢
      exact ih h

end DTable

namespace DTable

theorem ensureMany_awaited (st : ServerState) (rows : List Nat) (p : Nat)
    (hc : st.pageCache.lookup p = none)
    (hl : st.loading.contains p = true)
    (hrows : ∀ r ∈ rows, r / st.pageSize = p) :
    ensureMany st rows = (st, rows.map (fun _ => EnsureOutcome.awaited)) := by
  induction rows with
  | nil => rfl
  | cons r rest ih =>
    have hp : r / st.pageSize = p := hrows r (by simp)
    have hstep : ensurePageForRowStart st r = (st, EnsureOutcome.awaited) := by
      simp only [ensurePageForRowStart, hp, hc, Option.isSome_none, Bool.false_eq_true,
        if_false, hl, if_true]
    unfold ensureMany
    rw [hstep]
    dsimp only
    rw [ih (fun r hr => hrows r (by simp [hr]))]
    rfl

/-- C4: per (pageIndex, query) pair at most one fetch is ever started:
from a state where the target page is neither cached nor loading, one
call to ensurePageForRow followed by any number of further synchronous
calls for rows of the same page invokes fetchPageData exactly once (the
log grows by the single entry for that page and the current query), the
later callers all take the awaited branch, the page is marked loading,
and settling the fetch removes the page from loadingPromises and caches
the response. -/
theorem ensurePage_single_fetch (st : ServerState) (row : Nat) (rows : List Nat)
    (res : IPageResponse)
    (hnc : st.pageCache.lookup (row / st.pageSize) = none)
    (hnl : st.loading.contains (row / st.pageSize) = false)
    (hrows : ∀ r ∈ rows, r / st.pageSize = row / st.pageSize) :
    (ensureMany st (row :: rows)).1.fetchLog
        = st.fetchLog ++ [(row / st.pageSize, st.currentQuery)]
    ∧ (ensureMany st (row :: rows)).2
        = EnsureOutcome.started :: rows.map (fun _ => EnsureOutcome.awaited)
    ∧ (ensureMany st (row :: rows)).1.pageCache = st.pageCache
    ∧ (ensureMany st (row :: rows)).1.loading = st.loading ++ [row / st.pageSize]
    ∧ (settlePage (ensureMany st (row :: rows)).1 (row / st.pageSize) res).loading.contains
        (row / st.pageSize) = false
    ∧ (settlePage (ensureMany st (row :: rows)).1 (row / st.pageSize) res).pageCache.lookup
        (row / st.pageSize) = some res.list := by
  have hstart : ensurePageForRowStart st row
      = ({ st with
            fetchLog := st.fetchLog ++ [(row / st.pageSize, st.currentQuery)],
            loading := st.loading ++ [row / st.pageSize] },
         EnsureOutcome.started) := by
    simp only [ensurePageForRowStart, hnc, Option.isSome_none, Bool.false_eq_true,
      if_false, hnl]
  have hmany : ensureMany st (row :: rows)
      = ({ st with
            fetchLog := st.fetchLog ++ [(row / st.pageSize, st.currentQuery)],
            loading := st.loading ++ [row / st.pageSize] },
         EnsureOutcome.started :: rows.map (fun _ => EnsureOutcome.awaited)) := by
    unfold ensureMany
    rw [hstart]
    dsimp only
    rw [ensureMany_awaited
      { st with
          fetchLog := st.fetchLog ++ [(row / st.pageSize, st.currentQuery)],
          loading := st.loading ++ [row / st.pageSize] }
      rows (row / st.pageSize) hnc (by simp) hrows]
  refine ⟨by rw [hmany], by rw [hmany], by rw [hmany], by rw [hmany], ?_, ?_⟩
  · rw [hmany]
    simp [settlePage, List.mem_filter]
  · rw [hmany]
    simp only [settlePage, setAssoc, hnc, Option.isSome_none, Bool.false_eq_true, if_false]
    exact lookup_append_of_none hnc

/-- Closed instance of the fetch dedup theorem: pageSize 50, five
synchronous calls for row 10 from the fresh state; exactly one fetch of
page 0 is logged and the four later calls await it. -/
theorem ensurePage_single_fetch_witness :
    (ensureMany { pageSize := 50 } [10, 10, 10, 10, 10]).1.fetchLog = [(0, {})]
    ∧ (ensureMany { pageSize := 50 } [10, 10, 10, 10, 10]).2
        = [EnsureOutcome.started, EnsureOutcome.awaited, EnsureOutcome.awaited,
           EnsureOutcome.awaited, EnsureOutcome.awaited]
    ∧ (settlePage (ensureMany { pageSize := 50 } [10, 10, 10, 10, 10]).1 0
        ⟨[[("a", JVal.num 1)]], 100⟩).loading.contains 0 = false := by
  have h := ensurePage_single_fetch { pageSize := 50 } 10 [10, 10, 10, 10]
    ⟨[[("a", JVal.num 1)]], 100⟩ (by decide) (by decide) (by decide)
  exact ⟨h.1, h.2.1, h.2.2.2.2.1⟩

end DTable

namespace DTable

/-! ## Bootstrap policy (bootstrapStrategy) -/

/-- The configuration fields the bootstrap policy reads.  The injected
fetchPageData is modelled as a pure page-indexed function (the bootstrap
path always calls it with the initial empty query). -/
structure IConfig where
  initialData : Option (List Row) := none
  fetchPageData : Option (Nat → IPageResponse) := none
  pageSize : Nat

/-- The mode decided at bootstrap. -/
inductive Mode where
  | client
  | server
  deriving DecidableEq, Repr

/-- The chosen data strategy with its initial state. -/
inductive Strategy where
  | clientStrat (st : ClientState)
  | serverStrat (st : ServerState)
  deriving DecidableEq, Repr

/-- Embeds ServerDataStrategy.bootstrap over the pure fetch model:
ensurePageForRow(0) starts a fetch of page 0 whose response settles. -/
def serverBootstrap (fetch : Nat → IPageResponse) (pageSize : Nat) : ServerState :=
  settlePage (ensurePageForRowStart { pageSize := pageSize } 0).1 0 (fetch 0)

/-- Embeds bootstrapStrategy.  The CLIENT_SIDE_MAX_ROWS constant lives
in a config module that is not part of src, so the threshold is passed
as a parameter.  Math.ceil(totalRows / pageSize) is the rounded-up
natural division (the model assumes a positive pageSize, as the source
does).  A server decision without fetchPageData crashes at run time in
the source (non-null assertion); the model surfaces it as an error. -/
def bootstrapStrategy (threshold : Nat) (config : IConfig) :
    Except String (Strategy × Mode × Nat) :=
  match config.initialData with
  | some d =>
    if d.length ≤ threshold then
      Except.ok (Strategy.clientStrat (mkClient d), Mode.client, d.length)
    else
      match config.fetchPageData with
      | some f =>
        Except.ok (Strategy.serverStrat (serverBootstrap f config.pageSize), Mode.server,
          (serverBootstrap f config.pageSize).totalRows)
      | none => Except.error "fetchPageData required"
  | none =>
    match config.fetchPageData with
    | none => Except.error "initialData or fetchPageData must be provided"
    | some f =>
      if (f 0).totalRows ≤ threshold then
        Except.ok (Strategy.clientStrat (mkClient
          ((List.range (((f 0).totalRows + config.pageSize - 1) / config.pageSize)).flatMap
            (fun page => (f page).list))),
          Mode.client, (f 0).totalRows)
      else
        Except.ok (Strategy.serverStrat (serverBootstrap f config.pageSize), Mode.server,
          (serverBootstrap f config.pageSize).totalRows)

/-- Spec side, from the claim: the paged-remote strategy resulting from
bootstrap holds exactly the first page in its cache, no pending load,
the fetched total, and a log of the single page-0 fetch. -/
def specServerAfterBootstrap (fetch : Nat → IPageResponse) (pageSize : Nat) : ServerState :=
  { pageSize := pageSize,
    pageCache := [(0, (fetch 0).list)],
    loading := [],
    currentQuery := {},
    totalRows := (fetch 0).totalRows,
    fetchLog := [(0, {})] }

/-- Spec side, from the claim: the deterministic bootstrap choice. -/
def specBootstrap (threshold : Nat) (config : IConfig) :
    Except String (Strategy × Mode × Nat) :=
  match config.initialData, config.fetchPageData with
  | some d, _ =>
    if d.length ≤ threshold then
      Except.ok (Strategy.clientStrat { fullData := d, filteredData := d },
        Mode.client, d.length)
    else
      match config.fetchPageData with
      | some f =>
        Except.ok (Strategy.serverStrat (specServerAfterBootstrap f config.pageSize),
          Mode.server, (f 0).totalRows)
      | none => Except.error "fetchPageData required"
  | none, some f =>
    if (f 0).totalRows ≤ threshold then
      Except.ok (Strategy.clientStrat
        { fullData := (List.range (((f 0).totalRows + config.pageSize - 1)
              / config.pageSize)).flatMap (fun page => (f page).list),
          filteredData := (List.range (((f 0).totalRows + config.pageSize - 1)
              / config.pageSize)).flatMap (fun page => (f page).list) },
        Mode.client, (f 0).totalRows)
    else
      Except.ok (Strategy.serverStrat (specServerAfterBootstrap f config.pageSize),
        Mode.server, (f 0).totalRows)
  | none, none => Except.error "initialData or fetchPageData must be provided"

theorem serverBootstrap_eq_spec (fetch : Nat → IPageResponse) (pageSize : Nat) :
    serverBootstrap fetch pageSize = specServerAfterBootstrap fetch pageSize := by
  unfold serverBootstrap specServerAfterBootstrap ensurePageForRowStart settlePage setAssoc
  simp [Nat.zero_div, List.lookup]

/-- C6: bootstrap chooses the strategy deterministically: full
initialData within the threshold yields the in-memory strategy over that
data with totalRows equal to its length; larger initialData yields the
paged-remote strategy; without initialData, page 0 is probed and either
all ceil(totalRows/pageSize) pages are fetched eagerly and concatenated
into the in-memory strategy, or the paged-remote strategy retains the
first page; with neither input the bootstrap fails with a configuration
error. -/
theorem bootstrapStrategy_meets_spec (threshold : Nat) (config : IConfig) :
    bootstrapStrategy threshold config = specBootstrap threshold config := by
  obtain ⟨initialData, fetchPageData, pageSize⟩ := config
  unfold bootstrapStrategy specBootstrap
  rcases initialData with _ | d <;> rcases fetchPageData with _ | f <;>
    simp [serverBootstrap_eq_spec, mkClient, specServerAfterBootstrap]

end DTable

namespace DTable

/-! ## Pivot engine (src/table/pivot/PivotDataProcessor.ts and
src/table/pivot/PivotTreeNode.ts) -/

/-- Supported aggregations. -/
inductive AggregationType where
  | sum
  | avg
  | count
  | min
  | max
  deriving DecidableEq, Repr

/-- One value field of the pivot configuration. -/
structure ValueField where
  key : String
  aggregation : AggregationType
  deriving DecidableEq, Repr

/-- The pivot configuration. -/
structure IPivotConfig where
  rowGroups : List String
  valueFields : List ValueField
  showSubtotals : Bool := true
  deriving DecidableEq, Repr

/-- Math.round(x * 100) / 100, rounding to two decimals. -/
def round2 (q : ℚ) : ℚ := ((round (q * 100) : ℤ) : ℚ) / 100

/-- JS object write row[key] = v: overwrite in place, or append. -/
def rowSet (row : Row) (key : String) (v : JVal) : Row :=
  if (row.lookup key).isSome then
    row.map (fun p => if p.1 = key then (key, v) else p)
  else row ++ [(key, v)]

/-- Embeds PivotDataProcessor.aggregate: count short-circuits to the row
count; the other aggregations extract the cells that parse to numbers,
return 0 when none does, and otherwise fold the parsed values. -/
def aggregate (rows : List Row) (fieldKey : String) (aggregation : AggregationType) : ℚ :=
  if aggregation = AggregationType.count then (rows.length : ℚ)
  else
    let values := (rows.map (fun row => jsNumber (rowGet row fieldKey))).filterMap id
    if values.length = 0 then 0
    else
      match aggregation with
      | AggregationType.sum => values.foldl (· + ·) 0
      | AggregationType.avg => round2 (values.foldl (· + ·) 0 / (values.length : ℚ))
      | AggregationType.min =>
        match values with
        | [] => 0
        | v :: vs => vs.foldl min v
      | AggregationType.max =>
        match values with
        | [] => 0
        | v :: vs => vs.foldl max v
      | AggregationType.count => 0

/-- Embeds PivotDataProcessor.computeAggregatedData: the group key and
value first, then one aggregate per configured value field. -/
def computeAggregatedData (cfg : IPivotConfig) (rows : List Row) (groupKey : String)
    (groupValue : JVal) : Row :=
  cfg.valueFields.foldl
    (fun acc vf => rowSet acc vf.key (JVal.num (aggregate rows vf.key vf.aggregation)))
    [(groupKey, groupValue)]

/-- Embeds PivotDataProcessor.computeRootAggregatedData: one aggregate
per configured value field over the whole dataset. -/
def computeRootAggregatedData (cfg : IPivotConfig) (data : List Row) : Row :=
  cfg.valueFields.foldl
    (fun acc vf => rowSet acc vf.key (JVal.num (aggregate data vf.key vf.aggregation)))
    []

/-- Embeds PivotDataProcessor.groupByField: an insertion-ordered map
from group value to the rows carrying it. -/
def groupByField (data : List Row) (fieldKey : String) : List (JVal × List Row) :=
  data.foldl
    (fun groups row =>
      let value := rowGet row fieldKey
      if (groups.lookup value).isSome then
        groups.map (fun g => if g.1 = value then (g.1, g.2 ++ [row]) else g)
      else groups ++ [(value, [row])])
    []

/-- Node type: inner group node or leaf data node. -/
inductive NodeType where
  | group
  | data
  deriving DecidableEq, Repr

mutual
/-- Pivot tree node: id, node type, level, group value, aggregated data
(the raw row for leaves), children, expansion flag and row count.  The
children list is represented by the mutually defined PForest so that
recursion over trees stays structural; the rawRows field of the source
is omitted (flattening never reads it); the null groupValue of leaves is
modelled as undef. -/
inductive PNode where
  | mk (id : String) (type : NodeType) (level : Int) (groupValue : JVal)
      (aggregatedData : Row) (children : PForest) (isExpanded : Bool)
      (rowCount : Nat)

/-- A list of sibling pivot nodes. -/
inductive PForest where
  | nil
  | cons (head : PNode) (tail : PForest)
end

/-- Node id accessor. -/
def PNode.id : PNode → String
  | PNode.mk i _ _ _ _ _ _ _ => i

/-- Node type accessor. -/
def PNode.type : PNode → NodeType
  | PNode.mk _ t _ _ _ _ _ _ => t

/-- Node level accessor. -/
def PNode.level : PNode → Int
  | PNode.mk _ _ l _ _ _ _ _ => l

/-- Group value accessor. -/
def PNode.groupValue : PNode → JVal
  | PNode.mk _ _ _ g _ _ _ _ => g

/-- Aggregated data accessor. -/
def PNode.aggregatedData : PNode → Row
  | PNode.mk _ _ _ _ a _ _ _ => a

/-- Children accessor. -/
def PNode.children : PNode → PForest
  | PNode.mk _ _ _ _ _ c _ _ => c

/-- Expansion flag accessor. -/
def PNode.isExpanded : PNode → Bool
  | PNode.mk _ _ _ _ _ _ e _ => e

/-- Row count accessor. -/
def PNode.rowCount : PNode → Nat
  | PNode.mk _ _ _ _ _ _ _ r => r

/-- Forest to list. -/
def PForest.toList : PForest → List PNode
  | PForest.nil => []
  | PForest.cons h t => h :: PForest.toList t

/-- List to forest. -/
def PForest.ofList : List PNode → PForest
  | [] => PForest.nil
  | h :: t => PForest.cons h (PForest.ofList t)

mutual
/-- Number of nodes of a pivot tree. -/
def PNode.size : PNode → Nat
  | PNode.mk _ _ _ _ _ c _ _ => 1 + PForest.size c

/-- Number of nodes of a forest. -/
def PForest.size : PForest → Nat
  | PForest.nil => 0
  | PForest.cons h t => PNode.size h + PForest.size t
end

/-- Embeds PivotTreeNode.createGroupNode: empty children, collapsed. -/
def createGroupNode (id : String) (level : Int) (groupValue : JVal)
    (aggregatedData : Row) (rowCount : Nat) : PNode :=
  PNode.mk id NodeType.group level groupValue aggregatedData PForest.nil false rowCount

/-- Embeds PivotTreeNode.createDataNode: the raw row is stored as the
aggregated data; the null group value is modelled as undef. -/
def createDataNode (id : String) (level : Int) (rawRow : Row) : PNode :=
  PNode.mk id NodeType.data level JVal.undef rawRow PForest.nil false 1

/-- Replaces the children of a node. -/
def PNode.withChildren : PNode → List PNode → PNode
  | PNode.mk i t l g a _ e r, cs => PNode.mk i t l g a (PForest.ofList cs) e r

/-- Embeds PivotDataProcessor.buildSubTree: at the leaf depth every row
becomes a data node; otherwise group by the current field, aggregate
each group, and recurse one level deeper. -/
def buildSubTree (cfg : IPivotConfig) (data : List Row) :
    List String → Int → String → List PNode
  | [], level, parentId =>
    data.mapIdx (fun i row => createDataNode (parentId ++ "-data-" ++ toString i) level row)
  | groupKey :: restGroups, level, parentId =>
    (groupByField data groupKey).mapIdx (fun index gv =>
      (createGroupNode (parentId ++ "-g" ++ toString level ++ "-" ++ toString index)
          level gv.1 (computeAggregatedData cfg gv.2 groupKey gv.1) gv.2.length).withChildren
        (buildSubTree cfg gv.2 restGroups (level + 1)
          (parentId ++ "-g" ++ toString level ++ "-" ++ toString index)))

/-- Embeds PivotDataProcessor.buildPivotTree: the always-expanded
synthetic root at level -1 carrying the root aggregated data. -/
def buildPivotTree (cfg : IPivotConfig) (data : List Row) : PNode :=
  PNode.mk "root" NodeType.group (-1) JVal.undef
    (computeRootAggregatedData cfg data)
    (PForest.ofList (buildSubTree cfg data cfg.rowGroups 0 "root"))
    true
    data.length

/-- Flat row type tags; nomal reproduces the literal of the source. -/
inductive RowTypeKind where
  | nomal
  | subtotal
  | grandtotal
  deriving DecidableEq, Repr

/-- One flat row produced by flattening (IPivotFlatRow). -/
structure PivotFlatRow where
  nodeId : String
  type : NodeType
  rowType : RowTypeKind
  level : Int
  data : Row
  isExpanded : Bool
  rowCount : Nat
  groupVale : JVal
  parentId : String
  deriving DecidableEq, Repr

/-- parentId derivation: id.split("-").slice(0, -1).join("-") with the
empty result replaced by root. -/
def parentIdOf (id : String) : String :=
  let joined := String.intercalate "-" ((id.splitOn "-").dropLast)
  if joined = "" then "root" else joined

/-- The marker the source places in groupValue of the sentinel. -/
def subtotalMarker : String := "__SUBTOTAL__"

/-- The flat row a node emits. -/
def toFlatRow (n : PNode) : PivotFlatRow :=
  { nodeId := n.id, type := n.type, rowType := RowTypeKind.nomal, level := n.level,
    data := n.aggregatedData, isExpanded := n.isExpanded, rowCount := n.rowCount,
    groupVale := n.groupValue, parentId := parentIdOf n.id }

/-- The sentinel the source pushes for the subtotal row: the group node
with "-subtotal" appended to its id, no children, collapsed, and the
subtotal marker as group value; every other field is spread over. -/
def subtotalSentinel (n : PNode) : PNode :=
  PNode.mk (n.id ++ "-subtotal") NodeType.group n.level (JVal.str subtotalMarker)
    n.aggregatedData PForest.nil false n.rowCount

/-- The explicit-stack loop of PivotTreeNode.flattenTree, with the stack
top at the head (array push/pop act on the right end).  The root is
skipped and its children enter the stack in order; every other popped
node is emitted; an expanded group node pushes first its children in
order and then, above them, the subtotal sentinel, which therefore pops
before the children.  The fuel argument only bounds the iteration count
of the while loop; flattenTree passes enough for full termination. -/
def flattenLoop : Nat → List PNode → List PivotFlatRow → List PivotFlatRow
  | 0, _, result => result
  | _ + 1, [], result => result
  | fuel + 1, current :: stackRest, result =>
    if current.level = -1 then
      flattenLoop fuel (current.children.toList ++ stackRest) result
    else
      if current.type = NodeType.group ∧ current.isExpanded = true then
        flattenLoop fuel (subtotalSentinel current :: current.children.toList ++ stackRest)
          (result ++ [toFlatRow current])
      else
        flattenLoop fuel stackRest (result ++ [toFlatRow current])

/-- Embeds PivotTreeNode.flattenTree: run the stack loop (the node count
bounds the number of original nodes and sentinels ever pushed, so fuel
2 * size + 2 never runs out), append the grand-total row built from the
root aggregated data when anything was emitted, then turn the rows
marked with the subtotal sentinel into subtotal rows. -/
def flattenTree (node : PNode) : List PivotFlatRow :=
  let result := flattenLoop (2 * PNode.size node + 2) [node] []
  let result :=
    if result.length > 0 then
      result ++ [{ nodeId := "grand-total", type := NodeType.group,
                   rowType := RowTypeKind.grandtotal, level := 0,
                   data := node.aggregatedData, isExpanded := false,
                   rowCount := node.rowCount, groupVale := JVal.str "总计",
                   parentId := "root" }]
    else result
  result.map (fun row =>
    if row.groupVale = JVal.str subtotalMarker then
      { row with rowType := RowTypeKind.subtotal, groupVale := JVal.str "小计" }
    else row)

end DTable

namespace DTable

/-- The two-level pivot dataset of the specification scenario. -/
def examplePivotData : List Row :=
  [[("r", JVal.str "N"), ("c", JVal.str "X"), ("v", JVal.num 10)],
   [("r", JVal.str "N"), ("c", JVal.str "Y"), ("v", JVal.num 20)],
   [("r", JVal.str "S"), ("c", JVal.str "X"), ("v", JVal.num 30)]]

/-- rowGroups r then c, sum over v, subtotals on. -/
def examplePivotConfig : IPivotConfig :=
  { rowGroups := ["r", "c"],
    valueFields := [{ key := "v", aggregation := AggregationType.sum }],
    showSubtotals := true }

/-- Sets the expansion flag of a node. -/
def PNode.setExpanded : PNode → Bool → PNode
  | PNode.mk i t l g a c _ r, b => PNode.mk i t l g a c b r

/-- Expands every top-level group of a tree. -/
def expandTopGroups (n : PNode) : PNode :=
  match n with
  | PNode.mk i t l g a c e r =>
    PNode.mk i t l g a (PForest.ofList (c.toList.map (fun ch => ch.setExpanded true))) e r

/-- The inner group N/X of the scenario tree (sum 10) with its leaf. -/
def nodeNX : PNode :=
  PNode.mk "root-g0-0-g1-0" NodeType.group 1 (JVal.str "X")
    [("c", JVal.str "X"), ("v", JVal.num 10)]
    (PForest.ofList [createDataNode "root-g0-0-g1-0-data-0" 2
      [("r", JVal.str "N"), ("c", JVal.str "X"), ("v", JVal.num 10)]]) false 1

/-- The inner group N/Y of the scenario tree (sum 20) with its leaf. -/
def nodeNY : PNode :=
  PNode.mk "root-g0-0-g1-1" NodeType.group 1 (JVal.str "Y")
    [("c", JVal.str "Y"), ("v", JVal.num 20)]
    (PForest.ofList [createDataNode "root-g0-0-g1-1-data-0" 2
      [("r", JVal.str "N"), ("c", JVal.str "Y"), ("v", JVal.num 20)]]) false 1

/-- The inner group S/X of the scenario tree (sum 30) with its leaf. -/
def nodeSX : PNode :=
  PNode.mk "root-g0-1-g1-0" NodeType.group 1 (JVal.str "X")
    [("c", JVal.str "X"), ("v", JVal.num 30)]
    (PForest.ofList [createDataNode "root-g0-1-g1-0-data-0" 2
      [("r", JVal.str "S"), ("c", JVal.str "X"), ("v", JVal.num 30)]]) false 1

/-- Top-level group N (sum 30), expanded. -/
def nodeN : PNode :=
  PNode.mk "root-g0-0" NodeType.group 0 (JVal.str "N")
    [("r", JVal.str "N"), ("v", JVal.num 30)]
    (PForest.ofList [nodeNX, nodeNY]) true 2

/-- Top-level group S (sum 30), expanded. -/
def nodeS : PNode :=
  PNode.mk "root-g0-1" NodeType.group 0 (JVal.str "S")
    [("r", JVal.str "S"), ("v", JVal.num 30)]
    (PForest.ofList [nodeSX]) true 1

/-- The scenario tree with both top groups expanded: root at level -1
with grand total 60. -/
def examplePivotTree : PNode :=
  PNode.mk "root" NodeType.group (-1) JVal.undef [("v", JVal.num 60)]
    (PForest.ofList [nodeN, nodeS]) true 3

/-- The scenario tree as buildPivotTree returns it (groups collapsed). -/
def examplePivotTreeCollapsed : PNode :=
  PNode.mk "root" NodeType.group (-1) JVal.undef [("v", JVal.num 60)]
    (PForest.ofList [nodeN.setExpanded false, nodeS.setExpanded false]) true 3

/-- C1: on the scenario data (rowGroups r then c, sum over v, both top
groups expanded, subtotals on) the code emits each subtotal row
immediately after its group header and before the group children, at the
group level rather than level + 1, and it does so unconditionally
because flattenTree has no showSubtotals parameter even though its
callers pass one; the claimed order N, N/X, N/Y, subtotal, S, S/X,
subtotal, grandtotal is not produced.  The actual order is N,
subtotal(30), N/X(10), N/Y(20), S, subtotal(30), S/X(30),
grandtotal(60). -/
theorem flattenTree_subtotal_before_children :
    buildPivotTree examplePivotConfig examplePivotData = examplePivotTreeCollapsed
    ∧ expandTopGroups examplePivotTreeCollapsed = examplePivotTree
    ∧ (flattenTree examplePivotTree).map (fun r => (r.rowType, r.level, rowGet r.data "v"))
        = [(RowTypeKind.nomal, 0, JVal.num 30),
           (RowTypeKind.subtotal, 0, JVal.num 30),
           (RowTypeKind.nomal, 1, JVal.num 10),
           (RowTypeKind.nomal, 1, JVal.num 20),
           (RowTypeKind.nomal, 0, JVal.num 30),
           (RowTypeKind.subtotal, 0, JVal.num 30),
           (RowTypeKind.nomal, 1, JVal.num 30),
           (RowTypeKind.grandtotal, 0, JVal.num 60)] := by
  refine ⟨?_, ?_, ?_⟩
  · set_option maxHeartbeats 1000000 in
    simp +decide [buildPivotTree, buildSubTree, examplePivotConfig, examplePivotData,
      groupByField, computeAggregatedData, computeRootAggregatedData, aggregate, rowSet,
      rowGet, jsNumber, createGroupNode, createDataNode, PNode.withChildren, PForest.ofList,
      List.lookup, List.mapIdx, nodeN, nodeS, nodeNX, nodeNY, nodeSX, PNode.setExpanded,
      examplePivotTreeCollapsed]
    norm_num
  · simp [expandTopGroups, examplePivotTreeCollapsed, examplePivotTree, PForest.ofList,
      PForest.toList, PNode.setExpanded, nodeN, nodeS]
  · decide

end DTable

namespace DTable

/-- Spec side: the cells of a column that parse to numbers. -/
def parsedCells (rows : List Row) (fieldKey : String) : List ℚ :=
  rows.filterMap (fun row => jsNumber (rowGet row fieldKey))

theorem aggregate_values_eq (rows : List Row) (fieldKey : String) :
    (rows.map (fun row => jsNumber (rowGet row fieldKey))).filterMap id
      = parsedCells rows fieldKey := by
  rw [parsedCells, List.filterMap_map]
  rfl

theorem foldl_min_spec (vs : List ℚ) (v : ℚ) :
    vs.foldl min v ∈ v :: vs ∧ ∀ x ∈ v :: vs, vs.foldl min v ≤ x := by
  induction vs generalizing v with
  | nil =>
    refine ⟨by simp, ?_⟩
    intro x hx
    rw [List.mem_singleton] at hx
    subst hx
    exact le_refl _
  | cons w ws ih =>
    obtain ⟨ihmem, ihle⟩ := ih (min v w)
    constructor
    · rw [List.foldl_cons]
      rcases List.mem_cons.mp ihmem with h | h
      · rcases min_choice v w with hc | hc <;> rw [h, hc] <;> simp
      · simp [h]
    · intro x hx
      rw [List.foldl_cons]
      rcases List.mem_cons.mp hx with rfl | hx2
      · exact le_trans (ihle _ (List.mem_cons_self _ _)) (min_le_left _ _)
      · rcases List.mem_cons.mp hx2 with rfl | hx3
        · exact le_trans (ihle _ (List.mem_cons_self _ _)) (min_le_right _ _)
        · exact ihle x (List.mem_cons_of_mem _ hx3)

theorem foldl_max_spec (vs : List ℚ) (v : ℚ) :
    vs.foldl max v ∈ v :: vs ∧ ∀ x ∈ v :: vs, x ≤ vs.foldl max v := by
  induction vs generalizing v with
  | nil =>
    refine ⟨by simp, ?_⟩
    intro x hx
    rw [List.mem_singleton] at hx
    subst hx
    exact le_refl _
  | cons w ws ih =>
    obtain ⟨ihmem, ihle⟩ := ih (max v w)
    constructor
    · rw [List.foldl_cons]
      rcases List.mem_cons.mp ihmem with h | h
      · rcases max_choice v w with hc | hc <;> rw [h, hc] <;> simp
      · simp [h]
    · intro x hx
      rw [List.foldl_cons]
      rcases List.mem_cons.mp hx with rfl | hx2
      · exact le_trans (le_max_left _ _) (ihle _ (List.mem_cons_self _ _))
      · rcases List.mem_cons.mp hx2 with rfl | hx3
        · exact le_trans (le_max_right _ _) (ihle _ (List.mem_cons_self _ _))
        · exact ihle x (List.mem_cons_of_mem _ hx3)

end DTable

namespace DTable

theorem lookup_append_right_of_none {α β : Type} [BEq α] [LawfulBEq α]
    {m : List (α × β)} {k : α} {v : β}
    (h : m.lookup k = none) : (m ++ [(k, v)]).lookup k = some v := by
  induction m with
  | nil => simp [List.lookup]
  | cons p rest ih =>
    rcases p with ⟨a, b⟩
    rw [List.cons_append]
    rw [List.lookup] at h ⊢
    by_cases hk : (k == a) = true
    · rw [hk] at h
      cases h
    · rw [Bool.not_eq_true] at hk
      rw [hk] at h ⊢
      exact ih h

theorem lookup_map_replace (row : Row) (k : String) (v : JVal) :
    (row.map (fun p => if p.1 = k then (k, v) else p)).lookup k
      = (row.lookup k).map (fun _ => v) := by
  induction row with
  | nil => rfl
  | cons p rest ih =>
    rcases p with ⟨a, b⟩
    rw [List.map_cons]
    by_cases ha : a = k
    · subst ha
      rw [if_pos rfl, List.lookup, List.lookup, beq_self_eq_true]
      rfl
    · have hbeq : (k == a) = false := beq_eq_false_iff_ne.mpr (Ne.symm ha)
      rw [if_neg ha, List.lookup, List.lookup, hbeq]
      exact ih

theorem rowSet_lookup_self (row : Row) (k : String) (v : JVal) :
    (rowSet row k v).lookup k = some v := by
  unfold rowSet
  by_cases h : (row.lookup k).isSome = true
  · rw [if_pos h, lookup_map_replace]
    rcases hv : row.lookup k with _ | w
    · rw [hv] at h
      cases h
    · rfl
  · rw [if_neg h]
    rcases hv : row.lookup k with _ | w
    · exact lookup_append_right_of_none hv
    · rw [hv] at h
      simp at h

theorem lookup_map_replace_ne (row : Row) (k : String) (v : JVal) (k₀ : String)
    (h : k₀ ≠ k) :
    (row.map (fun p => if p.1 = k then (k, v) else p)).lookup k₀ = row.lookup k₀ := by
  induction row with
  | nil => rfl
  | cons p rest ih =>
    rcases p with ⟨a, b⟩
    rw [List.map_cons]
    by_cases ha : a = k
    · subst ha
      have hbeq : (k₀ == a) = false := beq_eq_false_iff_ne.mpr h
      rw [if_pos rfl, List.lookup, List.lookup, hbeq]
      exact ih
    · rw [if_neg ha, List.lookup, List.lookup]
      by_cases hk : (k₀ == a) = true
      · rw [hk]
      · rw [Bool.not_eq_true] at hk
        rw [hk]
        exact ih

theorem lookup_append (l₁ l₂ : List (String × JVal)) (k : String) :
    (l₁ ++ l₂).lookup k = ((l₁.lookup k).or (l₂.lookup k)) := by
  induction l₁ with
  | nil => simp [List.lookup]
  | cons p rest ih =>
    rcases p with ⟨a, b⟩
    rw [List.cons_append, List.lookup, List.lookup]
    by_cases hk : (k == a) = true
    · rw [hk]
      rfl
    · rw [Bool.not_eq_true] at hk
      rw [hk]
      exact ih

theorem rowSet_lookup_ne (row : Row) (k : String) (v : JVal) (k₀ : String)
    (h : k₀ ≠ k) :
    (rowSet row k v).lookup k₀ = row.lookup k₀ := by
  unfold rowSet
  by_cases hs : (row.lookup k).isSome = true
  · rw [if_pos hs]
    exact lookup_map_replace_ne row k v k₀ h
  · rw [if_neg hs, lookup_append]
    have hone : ([(k, v)] : Row).lookup k₀ = none := by
      have hbeq : (k₀ == k) = false := beq_eq_false_iff_ne.mpr h
      rw [List.lookup, hbeq]
      rfl
    rw [hone]
    rcases row.lookup k₀ <;> rfl

theorem foldl_rowSet_lookup_ne (fields : List ValueField) (data : List Row) (acc : Row)
    (k : String) (h : ∀ f ∈ fields, f.key ≠ k) :
    ((fields.foldl
        (fun acc f => rowSet acc f.key (JVal.num (aggregate data f.key f.aggregation)))
        acc).lookup k)
      = acc.lookup k := by
  induction fields generalizing acc with
  | nil => rfl
  | cons f rest ih =>
    rw [List.foldl_cons, ih _ (fun g hg => h g (List.mem_cons_of_mem _ hg))]
    exact rowSet_lookup_ne acc f.key _ k (fun hk => h f (List.mem_cons_self _ _) hk.symm)

theorem foldl_rowSet_lookup (fields : List ValueField) (data : List Row) (acc : Row)
    (hnd : (fields.map (fun vf => vf.key)).Nodup)
    (vf : ValueField) (hvf : vf ∈ fields) :
    ((fields.foldl
        (fun acc f => rowSet acc f.key (JVal.num (aggregate data f.key f.aggregation)))
        acc).lookup vf.key)
      = some (JVal.num (aggregate data vf.key vf.aggregation)) := by
  induction fields generalizing acc with
  | nil => cases hvf
  | cons f rest ih =>
    rw [List.map_cons, List.nodup_cons] at hnd
    obtain ⟨hne, hrest⟩ := hnd
    rcases List.mem_cons.mp hvf with rfl | hmem
    · rw [List.foldl_cons]
      rw [foldl_rowSet_lookup_ne rest data _ vf.key ?_]
      · exact rowSet_lookup_self acc vf.key _
      · intro g hg hgk
        exact hne (List.mem_map.mpr ⟨g, hg, hgk⟩)
    · rw [List.foldl_cons]
      exact ih _ hrest hmem

end DTable

namespace DTable

/-- C7: for every group of rows and value field, sum is the sum of the
cells that parse to numbers, avg is that sum divided by the number of
parsed cells and rounded to two decimals, count is the group row count
regardless of the field, min and max are the least and greatest parsed
cell, every aggregation other than count collapses to 0 when no cell
parses, and the root aggregated row binds every configured value field
to the same aggregate computed over the full dataset. -/
theorem aggregate_meets_spec (rows : List Row) (fieldKey : String) :
    aggregate rows fieldKey AggregationType.count = (rows.length : ℚ)
    ∧ aggregate rows fieldKey AggregationType.sum = (parsedCells rows fieldKey).sum
    ∧ aggregate rows fieldKey AggregationType.avg
        = (if parsedCells rows fieldKey = [] then 0
           else round2 ((parsedCells rows fieldKey).sum
              / ((parsedCells rows fieldKey).length : ℚ)))
    ∧ (parsedCells rows fieldKey = [] →
        aggregate rows fieldKey AggregationType.min = 0
        ∧ aggregate rows fieldKey AggregationType.max = 0)
    ∧ (parsedCells rows fieldKey ≠ [] →
        (aggregate rows fieldKey AggregationType.min ∈ parsedCells rows fieldKey
          ∧ ∀ x ∈ parsedCells rows fieldKey,
              aggregate rows fieldKey AggregationType.min ≤ x)
        ∧ (aggregate rows fieldKey AggregationType.max ∈ parsedCells rows fieldKey
          ∧ ∀ x ∈ parsedCells rows fieldKey,
              x ≤ aggregate rows fieldKey AggregationType.max))
    ∧ (∀ cfg : IPivotConfig, (cfg.valueFields.map (fun vf => vf.key)).Nodup →
        ∀ vf ∈ cfg.valueFields,
          (computeRootAggregatedData cfg rows).lookup vf.key
            = some (JVal.num (aggregate rows vf.key vf.aggregation))) := by
  have hv := aggregate_values_eq rows fieldKey
  refine ⟨?_, ?_, ?_, ?_, ?_, ?_⟩
  · simp [aggregate]
  · rcases hc : parsedCells rows fieldKey with _ | ⟨v, vs⟩
    · simp [aggregate, hv, hc]
    · simp [aggregate, hv, hc, List.sum_eq_foldl]
  · rcases hc : parsedCells rows fieldKey with _ | ⟨v, vs⟩
    · simp [aggregate, hv, hc]
    · simp [aggregate, hv, hc, List.sum_eq_foldl]
  · intro hc
    constructor <;> simp [aggregate, hv, hc]
  · intro hc
    rcases hne : parsedCells rows fieldKey with _ | ⟨v, vs⟩
    · exact absurd hne hc
    · have hmin := foldl_min_spec vs v
      have hmax := foldl_max_spec vs v
      constructor
      · constructor
        · simpa [aggregate, hv, hne] using hmin.1
        · intro x hx
          have := hmin.2 x hx
          simpa [aggregate, hv, hne] using this
      · constructor
        · simpa [aggregate, hv, hne] using hmax.1
        · intro x hx
          have := hmax.2 x hx
          simpa [aggregate, hv, hne] using this
  · intro cfg hnd vf hvf
    exact foldl_rowSet_lookup cfg.valueFields rows [] hnd vf hvf

/-- Closed instance of the aggregation theorem at a concrete group:
rows with v = 10, 20 and one unparseable cell; sum 30, count 3, avg 10,
min 10, max 20, and the root row of a sum field binds v to 30. -/
theorem aggregate_meets_spec_witness :
    aggregate [[("v", JVal.num 10)], [("v", JVal.num 20)], [("v", JVal.undef)]]
      "v" AggregationType.count = 3
    ∧ aggregate [[("v", JVal.num 10)], [("v", JVal.num 20)], [("v", JVal.undef)]]
      "v" AggregationType.sum = 30
    ∧ aggregate [[("v", JVal.num 10)], [("v", JVal.num 20)], [("v", JVal.undef)]]
      "v" AggregationType.avg = 15
    ∧ aggregate [[("v", JVal.num 10)], [("v", JVal.num 20)], [("v", JVal.undef)]]
      "v" AggregationType.min ≤ 10
    ∧ 20 ≤ aggregate [[("v", JVal.num 10)], [("v", JVal.num 20)], [("v", JVal.undef)]]
      "v" AggregationType.max := by
  have h := aggregate_meets_spec
    [[("v", JVal.num 10)], [("v", JVal.num 20)], [("v", JVal.undef)]] "v"
  have hcells : parsedCells
      [[("v", JVal.num 10)], [("v", JVal.num 20)], [("v", JVal.undef)]] "v"
      = [10, 20] := by
    decide
  obtain ⟨hcount, hsum, havg, _, hminmax, _⟩ := h
  have hmm := hminmax (by rw [hcells]; exact List.cons_ne_nil _ _)
  refine ⟨by simpa using hcount, ?_, ?_, ?_, ?_⟩
  · rw [hsum, hcells]
    norm_num [List.sum_cons, List.sum_nil]
  · rw [havg, hcells, if_neg (List.cons_ne_nil (10 : ℚ) [20])]
    norm_num [List.sum_cons, List.sum_nil, round2, round_eq]
  · exact hmm.1.2 10 (by rw [hcells]; simp)
  · exact hmm.2.2 20 (by rw [hcells]; simp)

end DTable
